import Mathlib

/-!
Verification of the `region_counter` overlap-counting engine against its
natural-language specification.  The Rust sources are embedded shallowly:

* `src/cigar.rs`   — `cigar_end_pos`, `check_cigar_overlap`
* `src/regions.rs` — `Region`, `compress_regions`, `convert_regions_vec_to_hashmap`
* `src/main.rs`    — flag constants, `check_read`, the per-record body of
  `count_reads`, the reduction loop of `count_mapped_reads`, and the policy
  derivation at the top of `count_unmapped_reads`.

Machine integers are modelled with `Nat`/`Int`: positions and interval bounds
are `i64` in the source and genomic coordinates never approach `2^63`, so
wrap-around is not modelled; flag masks are `u16` values modelled as `Nat`
with bitwise `&&&`/`^^^`.
-/

namespace RegionCounter

/-- The nine CIGAR operation kinds of the `rust_htslib` `Cigar` enum
(chars `M I D N S H P = X` in `cigar.rs`). -/
inductive CigarKind where
  | Match
  | Ins
  | Del
  | RefSkip
  | SoftClip
  | HardClip
  | Pad
  | Equal
  | Diff
deriving DecidableEq, Repr

/-- One CIGAR operation: a kind together with its `u32` length. -/
structure CigarOp where
  kind : CigarKind
  len : Nat
deriving DecidableEq, Repr

/-- An alignment record, restricted to the fields the engine reads:
0-based leftmost reference position (`pos()`), mapping quality (`mapq()`),
flag bitmask (`flags()`), and the CIGAR operation sequence (`cigar()`). -/
structure Record where
  pos : Int
  mapq : Nat
  flags : Nat
  cigar : List CigarOp
deriving DecidableEq, Repr

/-- The loop of `cigar_end_pos` (cigar.rs:3-15): walk the operations keeping a
reference cursor; `M`, `=`, `X`, `D`, `N` advance it by the operation length,
`I`, `S`, `H`, `P` leave it unchanged. -/
def cigar_end_loop : Int → List CigarOp → Int
  | pos, [] => pos
  | pos, c :: rest =>
    match c.kind with
    | .Match | .Equal | .Diff | .Del | .RefSkip => cigar_end_loop (pos + (c.len : Int)) rest
    | .Ins | .SoftClip | .HardClip | .Pad => cigar_end_loop pos rest

/-- `cigar_end_pos` (cigar.rs:3-15): the half-open end of the record's
reference footprint. -/
def cigar_end_pos (record : Record) : Int :=
  cigar_end_loop record.pos record.cigar

/-- The loop of `check_cigar_overlap` (cigar.rs:19-39): for `M`/`=`/`X` test
half-open intersection of `[pos, pos+len)` with
`[interval_start, interval_end)` and return `true` at the first hit, then
advance the cursor; `D`/`N` advance the cursor without testing; `I`/`S`/`H`/`P`
neither advance nor test. -/
def check_overlap_loop (interval_start interval_end : Int) : Int → List CigarOp → Bool
  | _, [] => false
  | pos, c :: rest =>
    match c.kind with
    | .Match | .Equal | .Diff =>
      if pos < interval_end ∧ interval_start < pos + (c.len : Int) then true
      else check_overlap_loop interval_start interval_end (pos + (c.len : Int)) rest
    | .Del | .RefSkip => check_overlap_loop interval_start interval_end (pos + (c.len : Int)) rest
    | .Ins | .SoftClip | .HardClip | .Pad => check_overlap_loop interval_start interval_end pos rest

/-- `check_cigar_overlap` (cigar.rs:19-39): does the record's sequenced
coverage intersect the 0-based half-open interval `[interval_start,
interval_end)`? -/
def check_cigar_overlap (record : Record) (interval_start interval_end : Int) : Bool :=
  check_overlap_loop interval_start interval_end record.pos record.cigar

/-- Modelled from the spec (4.1): the reference segments `[cursor,
cursor+length)` that the match-type operations (match, sequence-match,
sequence-mismatch) of a walk starting at `pos` produce; deletion and
reference-skip advance the cursor without producing a segment, and
insertion/soft-clip/hard-clip/padding do not advance the cursor.  Used to
state what `check_overlap_loop` computes. -/
def specMatchSegments : Int → List CigarOp → List (Int × Nat)
  | _, [] => []
  | pos, c :: rest =>
    match c.kind with
    | .Match | .Equal | .Diff => (pos, c.len) :: specMatchSegments (pos + (c.len : Int)) rest
    | .Del | .RefSkip => specMatchSegments (pos + (c.len : Int)) rest
    | .Ins | .SoftClip | .HardClip | .Pad => specMatchSegments pos rest

/-- Modelled from the spec (4.1/8): the length an operation contributes to the
reference footprint — its length for the reference-consuming kinds
(match, sequence-match, sequence-mismatch, deletion, reference-skip),
nothing for insertion, soft-clip, hard-clip and padding. -/
def specRefConsumedLen (c : CigarOp) : Int :=
  match c.kind with
  | .Match | .Equal | .Diff | .Del | .RefSkip => (c.len : Int)
  | .Ins | .SoftClip | .HardClip | .Pad => 0

lemma cigar_end_loop_eq_add_sum (ops : List CigarOp) :
    ∀ pos : Int, cigar_end_loop pos ops = pos + (ops.map specRefConsumedLen).sum := by
  induction ops with
  | nil => intro pos; simp [cigar_end_loop]
  | cons c rest ih =>
    intro pos
    obtain ⟨k, l⟩ := c
    cases k <;> simp [cigar_end_loop, specRefConsumedLen, ih] <;> ring

lemma le_cigar_end_loop (ops : List CigarOp) :
    ∀ pos : Int, pos ≤ cigar_end_loop pos ops := by
  induction ops with
  | nil => intro pos; simp [cigar_end_loop]
  | cons c rest ih =>
    intro pos
    obtain ⟨k, l⟩ := c
    cases k <;> simp only [cigar_end_loop] <;>
      first
        | exact ih pos
        | exact le_trans (by omega) (ih (pos + (l : Int)))

lemma check_overlap_loop_iff (interval_start interval_end : Int) (ops : List CigarOp) :
    ∀ pos : Int,
      check_overlap_loop interval_start interval_end pos ops = true ↔
        ∃ seg ∈ specMatchSegments pos ops,
          seg.1 < interval_end ∧ interval_start < seg.1 + (seg.2 : Int) := by
  induction ops with
  | nil => intro pos; simp [check_overlap_loop, specMatchSegments]
  | cons c rest ih =>
    intro pos
    obtain ⟨k, l⟩ := c
    cases k <;> simp only [check_overlap_loop, specMatchSegments] <;>
      first
        | exact ih pos
        | exact ih (pos + (l : Int))
        | · by_cases h : pos < interval_end ∧ interval_start < pos + (l : Int)
            · simp only [if_pos h]
              constructor
              · intro _
                exact ⟨(pos, l), List.mem_cons_self _ _, h.1, h.2⟩
              · intro _; trivial
            · simp only [if_neg h, ih (pos + (l : Int))]
              constructor
              · rintro ⟨seg, hmem, hs⟩
                exact ⟨seg, List.mem_cons_of_mem _ hmem, hs⟩
              · rintro ⟨seg, hmem, hs⟩
                rcases List.mem_cons.mp hmem with heq | hmem'
                · exact absurd (heq ▸ hs) (by simpa using h)
                · exact ⟨seg, hmem', hs⟩

lemma specMatchSegments_bounds (ops : List CigarOp) :
    ∀ (pos : Int), ∀ seg ∈ specMatchSegments pos ops,
      pos ≤ seg.1 ∧ seg.1 + (seg.2 : Int) ≤ cigar_end_loop pos ops := by
  induction ops with
  | nil => intro pos seg hmem; simp [specMatchSegments] at hmem
  | cons c rest ih =>
    intro pos seg hmem
    obtain ⟨k, l⟩ := c
    cases k <;> simp only [specMatchSegments, cigar_end_loop, List.mem_cons] at hmem ⊢ <;>
      first
        | · rcases hmem with heq | hmem'
            · subst heq
              exact ⟨le_refl _, le_cigar_end_loop rest (pos + (l : Int))⟩
            · have h := ih (pos + (l : Int)) seg hmem'
              exact ⟨le_trans (by omega) h.1, h.2⟩
        | · have h := ih (pos + (l : Int)) seg hmem
            exact ⟨le_trans (by omega) h.1, h.2⟩
        | exact ih pos seg hmem

/-- Claim C5: `check_cigar_overlap` returns `true` iff some match-type
operation (match, sequence-match, sequence-mismatch) of the walk produces a
reference segment `[cursor, cursor+length)` intersecting
`[interval_start, interval_end)` under half-open semantics, where — as
`specMatchSegments` defines — deletion and reference-skip operations advance
the cursor without producing a segment and insertion/soft-clip/hard-clip/
padding operations neither advance the cursor nor test. -/
theorem check_cigar_overlap_iff_segment (record : Record) (interval_start interval_end : Int) :
    check_cigar_overlap record interval_start interval_end = true ↔
      ∃ seg ∈ specMatchSegments record.pos record.cigar,
        seg.1 < interval_end ∧ interval_start < seg.1 + (seg.2 : Int) :=
  check_overlap_loop_iff interval_start interval_end record.cigar record.pos

/-- Claim C8: for every starting position and operation sequence,
`cigar_end_pos` equals the position plus the sum of the lengths of exactly
the reference-consuming operations (match, sequence-match, sequence-mismatch,
deletion, reference-skip); the other kinds contribute nothing. -/
theorem cigar_end_pos_eq_pos_add_consumed (record : Record) :
    cigar_end_pos record = record.pos + (record.cigar.map specRefConsumedLen).sum :=
  cigar_end_loop_eq_add_sum record.cigar record.pos

/-- Claim C10: whenever `check_cigar_overlap` reports an overlap with the
half-open interval `[s, e)`, that interval intersects the record's overall
reference footprint: `s < cigar_end_pos record` and `record.pos < e`. -/
theorem check_cigar_overlap_within_footprint (record : Record) (s e : Int)
    (h : check_cigar_overlap record s e = true) :
    s < cigar_end_pos record ∧ record.pos < e := by
  obtain ⟨seg, hmem, hlt, hgt⟩ :=
    (check_overlap_loop_iff s e record.cigar record.pos).mp h
  obtain ⟨hle, hend⟩ := specMatchSegments_bounds record.cigar record.pos seg hmem
  unfold cigar_end_pos
  omega

/-- Witness for C10 at a concrete input: a 50-long match at position 100
overlaps `[120, 130)`, which indeed lies inside the footprint `[100, 150)`. -/
theorem check_cigar_overlap_within_footprint_witness :
    (120 : Int) < cigar_end_pos ⟨100, 0, 0, [⟨.Match, 50⟩]⟩ ∧ (100 : Int) < 130 :=
  check_cigar_overlap_within_footprint ⟨100, 0, 0, [⟨.Match, 50⟩]⟩ 120 130 (by decide)

/-- A genomic region (regions.rs:3-8): chromosome name and a 0-based
half-open interval `[start, end)`. -/
structure Region where
  seqname : String
  start : Int
  «end» : Int
deriving DecidableEq, Repr

/-- The comparator of `sort_regions_in_place` (regions.rs:10-17) as a
"comes-before-or-equal" relation: lexicographic on
`(seqname, start, end)`. -/
def regionLE (a b : Region) : Prop :=
  a.seqname < b.seqname ∨
    (a.seqname = b.seqname ∧
      (a.start < b.start ∨ (a.start = b.start ∧ a.«end» ≤ b.«end»)))

instance (a b : Region) : Decidable (regionLE a b) := by
  unfold regionLE; infer_instance

/-- A region list sorted the way `sort_regions_in_place` leaves it:
consecutive elements in `regionLE` order. -/
def sortedRegions : List Region → Prop
  | [] => True
  | [_] => True
  | a :: b :: rest => regionLE a b ∧ sortedRegions (b :: rest)

instance : ∀ l : List Region, Decidable (sortedRegions l)
  | [] => by unfold sortedRegions; infer_instance
  | [_] => by unfold sortedRegions; infer_instance
  | _ :: b :: rest =>
    have : Decidable (sortedRegions (b :: rest)) := instDecidableSortedRegions _
    by unfold sortedRegions; infer_instance

/-- How `compress_regions` (regions.rs:19-32) leaves its caller.  The Rust
function returns a plain `Vec<Region>` with no error channel; on empty input
the expression `regions[0]` panics with an index-out-of-bounds, which `panic`
records.  `invalidInput` stands for the `InvalidInput` error condition the
spec describes for empty input; the source has no code path producing it. -/
inductive MergeOutcome where
  | ok (merged : List Region)
  | invalidInput
  | panic
deriving DecidableEq, Repr

/-- The loop of `compress_regions` (regions.rs:22-30): for each subsequent
region, if it shares the accumulator's chromosome and starts at or before the
accumulator's end, the accumulator's end is ASSIGNED the region's end
(`current.end = region.end`, regions.rs:24 — not a max); otherwise the
accumulator is emitted and the region starts a new one; the final accumulator
is emitted at the end. -/
def compressGo (current : Region) : List Region → List Region
  | [] => [current]
  | region :: rest =>
    if region.seqname = current.seqname ∧ region.start ≤ current.«end» then
      compressGo { current with «end» := region.«end» } rest
    else
      current :: compressGo region rest

/-- `compress_regions` (regions.rs:19-32): merge a pre-sorted region list.
`regions[0]` on an empty slice panics (regions.rs:21). -/
def compress_regions (regions : List Region) : MergeOutcome :=
  match regions with
  | [] => MergeOutcome.panic
  | first :: rest => MergeOutcome.ok (compressGo first rest)

/-- The per-chromosome comparator of `convert_regions_vec_to_hashmap`
(regions.rs:43): lexicographic on `(start, end)`, as a
"comes-before-or-equal" relation. -/
def startEndLE (a b : Region) : Prop :=
  a.start < b.start ∨ (a.start = b.start ∧ a.«end» ≤ b.«end»)

instance (a b : Region) : Decidable (startEndLE a b) := by
  unfold startEndLE; infer_instance

/-- Stable insertion of a region into a list: it is placed before the first
element it compares less-than-or-equal to. -/
def insertRegion (a : Region) : List Region → List Region
  | [] => [a]
  | b :: rest => if startEndLE a b then a :: b :: rest else b :: insertRegion a rest

/-- A stable sort by `(start, end)`.  Rust's `sort_by` (regions.rs:43) is
stable, and a stable sort's output is uniquely determined by the comparator,
so this insertion sort computes the same list. -/
def sortRegionsByStartEnd : List Region → List Region
  | [] => []
  | a :: rest => insertRegion a (sortRegionsByStartEnd rest)

/-- `convert_regions_vec_to_hashmap` (regions.rs:36-46), modelled as the
lookup function of the resulting map: the entry for chromosome `c` collects,
in input order, exactly the input regions with that seqname (the `entry
.or_insert(vec![]).push` loop preserves order), then sorts them by
`(start, end)`; a chromosome with no region maps to the empty list. -/
def convert_regions_vec_to_hashmap (regions : List Region) (c : String) : List Region :=
  sortRegionsByStartEnd (regions.filter (fun r => r.seqname == c))

/-- Claim C1 (code bug): on the sorted same-chromosome input
`[chr1:[100,300), chr1:[150,200)]` — the second region wholly contained in
the first — `compress_regions` ASSIGNS the accumulator's end
(regions.rs:24), producing `[chr1:[100,200))`: the merged output does not
cover the accumulator's full extent `[100,300)`, contradicting the spec's
`accumulator.end = max(accumulator.end, region.end)`. -/
theorem compress_regions_shrinks_on_contained_region :
    compress_regions [⟨"chr1", 100, 300⟩, ⟨"chr1", 150, 200⟩] =
      MergeOutcome.ok [⟨"chr1", 100, 200⟩] ∧
    ¬ (∃ r ∈ [Region.mk "chr1" 100 200], r.start ≤ 250 ∧ (250 : Int) < r.«end») := by
  constructor
  · rfl
  · decide

/-- Counterexample for claim C3: at the concrete empty input the region merge
panics (index out of bounds on `regions[0]`, regions.rs:21); it does not fail
with an `InvalidInput` error condition. -/
theorem compress_regions_empty_input_panics :
    compress_regions [] = MergeOutcome.panic ∧
    compress_regions [] ≠ MergeOutcome.invalidInput := by
  constructor
  · rfl
  · decide

/-- Claim C3 as amended: the region merge never produces an `InvalidInput`
error condition; on empty input it does not return a value but panics
(index out of bounds), and it panics exactly on empty input. -/
theorem compress_regions_empty_amended (regions : List Region) :
    (compress_regions regions = MergeOutcome.panic ↔ regions = []) ∧
    compress_regions regions ≠ MergeOutcome.invalidInput := by
  cases regions <;> simp [compress_regions]

lemma regionLE_seq_le {a b : Region} (h : regionLE a b) : a.seqname ≤ b.seqname := by
  rcases h with h | ⟨h, _⟩
  · exact le_of_lt h
  · exact le_of_eq h

lemma regionLE_start_le {a b : Region} (h : regionLE a b) (heq : b.seqname = a.seqname) :
    a.start ≤ b.start := by
  rcases h with h | ⟨_, h | ⟨h, _⟩⟩
  · exact absurd (heq ▸ h) (lt_irrefl _)
  · exact le_of_lt h
  · exact le_of_eq h

lemma regionLE_shift {a b c : Region} (hbc : regionLE b c) (h1 : a.seqname = b.seqname)
    (h2 : a.start ≤ b.start) (h3 : a.«end» = b.«end») : regionLE a c := by
  rcases hbc with h | ⟨hseq, h | ⟨hs, he⟩⟩
  · exact Or.inl (h1 ▸ h)
  · exact Or.inr ⟨h1.trans hseq, Or.inl (lt_of_le_of_lt h2 h)⟩
  · rcases lt_or_eq_of_le (hs ▸ h2 : a.start ≤ c.start) with h' | h'
    · exact Or.inr ⟨h1.trans hseq, Or.inl h'⟩
    · exact Or.inr ⟨h1.trans hseq, Or.inr ⟨h', h3 ▸ he⟩⟩

lemma sortedRegions_merge {current region : Region} {t : List Region}
    (h : sortedRegions (current :: region :: t)) (hseq : region.seqname = current.seqname) :
    sortedRegions ({ current with «end» := region.«end» } :: t) := by
  obtain ⟨hcr, ht⟩ := h
  cases t with
  | nil => trivial
  | cons b t' =>
    obtain ⟨hrb, ht'⟩ := ht
    have h1 : current.seqname = region.seqname := hseq.symm
    have h2 : current.start ≤ region.start := regionLE_start_le hcr hseq
    exact ⟨regionLE_shift hrb h1 h2 rfl, ht'⟩

lemma compressGo_mem : ∀ (rest : List Region) (current : Region),
    sortedRegions (current :: rest) →
    ∀ x ∈ compressGo current rest,
      current.seqname ≤ x.seqname ∧ (x.seqname = current.seqname → current.start ≤ x.start) := by
  intro rest
  induction rest with
  | nil =>
    intro current _ x hx
    simp only [compressGo, List.mem_singleton] at hx
    subst hx
    exact ⟨le_refl _, fun _ => le_refl _⟩
  | cons region t ih =>
    intro current hs x hx
    obtain ⟨hcr, ht⟩ := hs
    by_cases hm : region.seqname = current.seqname ∧ region.start ≤ current.«end»
    · rw [compressGo, if_pos hm] at hx
      exact ih { current with «end» := region.«end» } (sortedRegions_merge ⟨hcr, ht⟩ hm.1) x hx
    · rw [compressGo, if_neg hm] at hx
      rcases List.mem_cons.mp hx with heq | hx'
      · subst heq
        exact ⟨le_refl _, fun _ => le_refl _⟩
      · obtain ⟨h1, h2⟩ := ih region ht x hx'
        refine ⟨le_trans (regionLE_seq_le hcr) h1, fun hxc => ?_⟩
        have hrc : region.seqname = current.seqname :=
          le_antisymm (le_of_le_of_eq h1 hxc) (regionLE_seq_le hcr)
        exact le_trans (regionLE_start_le hcr hrc) (h2 (hxc.trans hrc.symm))

lemma compressGo_invariant : ∀ (rest : List Region) (current : Region),
    sortedRegions (current :: rest) →
    (∀ r ∈ current :: rest, r.start ≤ r.«end») →
    (∀ x ∈ compressGo current rest, x.start ≤ x.«end») ∧
      List.Pairwise (fun a b => a.seqname = b.seqname → a.«end» < b.start)
        (compressGo current rest) := by
  intro rest
  induction rest with
  | nil =>
    intro current _ hse
    constructor
    · intro x hx
      simp only [compressGo, List.mem_singleton] at hx
      subst hx
      exact hse _ (List.mem_cons_self _ _)
    · simp [compressGo]
  | cons region t ih =>
    intro current hs hse
    obtain ⟨hcr, ht⟩ := hs
    by_cases hm : region.seqname = current.seqname ∧ region.start ≤ current.«end»
    · rw [compressGo, if_pos hm]
      apply ih { current with «end» := region.«end» } (sortedRegions_merge ⟨hcr, ht⟩ hm.1)
      intro r hr
      rcases List.mem_cons.mp hr with heq | hr'
      · subst heq
        have h1 : current.start ≤ region.start := regionLE_start_le hcr hm.1
        have h2 : region.start ≤ region.«end» :=
          hse region (List.mem_cons_of_mem _ (List.mem_cons_self _ _))
        exact le_trans h1 h2
      · exact hse r (List.mem_cons_of_mem _ (List.mem_cons_of_mem _ hr'))
    · rw [compressGo, if_neg hm]
      have hse' : ∀ r ∈ region :: t, r.start ≤ r.«end» :=
        fun r hr => hse r (List.mem_cons_of_mem _ hr)
      obtain ⟨hone, hpw⟩ := ih region ht hse'
      constructor
      · intro x hx
        rcases List.mem_cons.mp hx with heq | hx'
        · subst heq
          exact hse _ (List.mem_cons_self _ _)
        · exact hone x hx'
      · rw [List.pairwise_cons]
        refine ⟨fun x hx heq => ?_, hpw⟩
        obtain ⟨h1, h2⟩ := compressGo_mem t region ht x hx
        have hrc : region.seqname = current.seqname :=
          le_antisymm (le_of_le_of_eq h1 heq.symm) (regionLE_seq_le hcr)
        have hgt : current.«end» < region.start := by
          rcases lt_or_le current.«end» region.start with h | h
          · exact h
          · exact absurd ⟨hrc, h⟩ hm
        exact lt_of_lt_of_le hgt (h2 (heq.symm.trans hrc.symm))

lemma compress_filter_invariant {first : Region} {rest : List Region} {out : List Region}
    (c : String) (hs : sortedRegions (first :: rest))
    (hse : ∀ r ∈ first :: rest, r.start ≤ r.«end»)
    (hok : compress_regions (first :: rest) = MergeOutcome.ok out) :
    (∀ x ∈ out.filter (fun r => r.seqname == c), x.start ≤ x.«end») ∧
      List.Pairwise (fun a b => a.«end» < b.start)
        (out.filter (fun r => r.seqname == c)) := by
  have hout : out = compressGo first rest := by
    simpa [compress_regions] using hok.symm
  subst hout
  obtain ⟨hone, hpw⟩ := compressGo_invariant rest first hs hse
  constructor
  · intro x hx
    exact hone x (List.mem_of_mem_filter hx)
  · refine (hpw.sublist (List.filter_sublist _)).imp_of_mem ?_
    intro a b ha hb hrel
    have ha' : a.seqname = c := by simpa using (List.mem_filter.mp ha).2
    have hb' : b.seqname = c := by simpa using (List.mem_filter.mp hb).2
    exact hrel (ha'.trans hb'.symm)

lemma sortRegionsByStartEnd_eq_self : ∀ l : List Region,
    List.Pairwise startEndLE l → sortRegionsByStartEnd l = l := by
  intro l
  induction l with
  | nil => intro _; rfl
  | cons a t ih =>
    intro hpw
    obtain ⟨hhead, htail⟩ := List.pairwise_cons.mp hpw
    rw [sortRegionsByStartEnd, ih htail]
    cases t with
    | nil => rfl
    | cons b t' => exact if_pos (hhead b (List.mem_cons_self _ _))

/-- Claim C6: for every non-empty sorted region list whose regions satisfy
`start ≤ end`, the normalized output — merged by `compress_regions` and
grouped per chromosome by `convert_regions_vec_to_hashmap` — is, per
chromosome, sorted ascending by `start` and pairwise non-overlapping and
non-touching: consecutive regions satisfy `next.start > previous.end`. -/
theorem compress_regions_normalized (first : Region) (rest : List Region)
    (out : List Region) (c : String)
    (hs : sortedRegions (first :: rest))
    (hse : ∀ r ∈ first :: rest, r.start ≤ r.«end»)
    (hok : compress_regions (first :: rest) = MergeOutcome.ok out) :
    List.Chain' (fun a b => a.«end» < b.start) (convert_regions_vec_to_hashmap out c) ∧
      List.Chain' (fun a b => a.start ≤ b.start) (convert_regions_vec_to_hashmap out c) := by
  obtain ⟨hone, hpw⟩ := compress_filter_invariant c hs hse hok
  have hsorted : List.Pairwise startEndLE (out.filter (fun r => r.seqname == c)) := by
    refine hpw.imp_of_mem ?_
    intro a b ha _ hrel
    exact Or.inl (lt_of_le_of_lt (hone a ha) hrel)
  have heqlist : convert_regions_vec_to_hashmap out c = out.filter (fun r => r.seqname == c) :=
    sortRegionsByStartEnd_eq_self _ hsorted
  rw [heqlist]
  refine ⟨hpw.chain', ?_⟩
  refine List.Pairwise.chain' (hsorted.imp ?_)
  intro a b hrel
  rcases hrel with h | ⟨h, _⟩
  · exact le_of_lt h
  · exact le_of_eq h

/-- Witness for C6 at a concrete input: the sorted chr1 regions
`[100,200), [150,300), [400,500)` merge to `[100,300), [400,500)`, whose
chr1 group satisfies both chain conditions. -/
theorem compress_regions_normalized_witness :
    List.Chain' (fun a b => a.«end» < b.start)
      (convert_regions_vec_to_hashmap [⟨"chr1", 100, 300⟩, ⟨"chr1", 400, 500⟩] "chr1") ∧
      List.Chain' (fun a b => a.start ≤ b.start)
        (convert_regions_vec_to_hashmap [⟨"chr1", 100, 300⟩, ⟨"chr1", 400, 500⟩] "chr1") :=
  compress_regions_normalized ⟨"chr1", 100, 200⟩ [⟨"chr1", 150, 300⟩, ⟨"chr1", 400, 500⟩]
    [⟨"chr1", 100, 300⟩, ⟨"chr1", 400, 500⟩] "chr1"
    (by norm_num [sortedRegions, regionLE]) (by decide) (by rfl)

/-- main.rs:14 — flags a record is always excluded on: secondary alignment
(256), quality-check-failed (512) and supplementary alignment (2048). -/
def FLAGS_ALWAYS_FILTERED : Nat := 2816

/-- main.rs:15 — the properly-paired flag bit. -/
def FLAG_PROPER_PAIR : Nat := 2

/-- main.rs:16 — the unmapped flag bit. -/
def FLAG_UNMAPPED : Nat := 4

/-- main.rs:17 — the mapping-related flag bits. -/
def FLAGS_MAPPING_RELATED : Nat := 63

/-- The fields of `ProgramOptions` (cli.rs:7-22) the counting engine reads:
minimum mapping quality (`u8`), required flags and filtered flags (`u16`).
The file-path fields belong to the out-of-scope I/O layer. -/
structure ProgramOptions where
  minmapqual : Nat
  required_flag : Nat
  filtered_flag : Nat
deriving DecidableEq, Repr

/-- `ReadCheckOutcome` (main.rs:19-22). -/
inductive ReadCheckOutcome where
  | Accept
  | Reject
deriving DecidableEq, Repr

/-- `check_read` (main.rs:24-36): reject when the mapping quality is below
the minimum, or a required flag bit is missing, or a filtered flag bit is
present; accept otherwise. -/
def check_read (read : Record) (args : ProgramOptions) : ReadCheckOutcome :=
  if read.mapq < args.minmapqual then ReadCheckOutcome.Reject
  else if read.flags &&& args.required_flag ≠ args.required_flag ∨
      read.flags &&& args.filtered_flag ≠ 0 then ReadCheckOutcome.Reject
  else ReadCheckOutcome.Accept

/-- Claim C7: the classifier accepts iff `mapq ≥ min_mapping_quality`,
`flags & required_flags = required_flags` and `flags & filtered_flags = 0`,
and rejects otherwise; being a Lean function over all `Record` and
`ProgramOptions` values, it is pure and total. -/
theorem check_read_accept_iff (read : Record) (args : ProgramOptions) :
    (check_read read args = ReadCheckOutcome.Accept ↔
      (args.minmapqual ≤ read.mapq ∧
        read.flags &&& args.required_flag = args.required_flag ∧
        read.flags &&& args.filtered_flag = 0)) ∧
    (check_read read args = ReadCheckOutcome.Reject ↔
      ¬ (args.minmapqual ≤ read.mapq ∧
        read.flags &&& args.required_flag = args.required_flag ∧
        read.flags &&& args.filtered_flag = 0)) := by
  unfold check_read
  split_ifs with h1 h2
  · constructor
    · simp only [reduceCtorEq, false_iff]
      intro h
      exact absurd h.1 (by omega)
    · simp only [true_iff]
      intro h
      exact absurd h.1 (by omega)
  · constructor
    · simp only [reduceCtorEq, false_iff]
      intro h
      rcases h2 with h2 | h2
      · exact h2 h.2.1
      · exact h2 h.2.2
    · simp only [true_iff]
      intro h
      rcases h2 with h2 | h2
      · exact h2 h.2.1
      · exact h2 h.2.2
  · push_neg at h2
    constructor
    · simp only [true_iff]
      exact ⟨by omega, h2.1, h2.2⟩
    · simp only [reduceCtorEq, false_iff, not_not]
      exact ⟨by omega, h2.1, h2.2⟩

/-- The policy derivation at the top of `count_unmapped_reads`
(main.rs:180-184): force `minmapqual` to 0, XOR away the properly-paired
bits present in `required_flag`, XOR `required_flag` with the unmapped bit,
and XOR away the mapping-related bits present in `filtered_flag`. -/
def derive_unmapped_args (args : ProgramOptions) : ProgramOptions :=
  let required1 := args.required_flag ^^^ (args.required_flag &&& FLAG_PROPER_PAIR)
  let required2 := required1 ^^^ FLAG_UNMAPPED
  let filtered1 := args.filtered_flag ^^^ (args.filtered_flag &&& FLAGS_MAPPING_RELATED)
  { minmapqual := 0, required_flag := required2, filtered_flag := filtered1 }

/-- Claim C2 (code bug): the derivation XORs the unmapped bit
(main.rs:183), so it TOGGLES rather than sets it.  With a base
configuration whose `required_flags` already contains the unmapped bit
(value 4) the derived `required_flags` has the bit cleared, while with the
default base (3) it is set — contradicting the claim (and the source's own
comment "Turn on unmapped requirement") that the bit is set regardless. -/
theorem derive_unmapped_args_toggles_unmapped_bit :
    (derive_unmapped_args ⟨35, 4, 2816⟩).required_flag &&& FLAG_UNMAPPED = 0 ∧
    (derive_unmapped_args ⟨35, 3, 2816⟩).required_flag &&& FLAG_UNMAPPED = FLAG_UNMAPPED := by
  decide

/-- `CountResult` (main.rs:52-55). -/
structure CountResult where
  accepted : Nat
  rejected : Nat
deriving DecidableEq, Repr

/-- The loop-carried state of `count_reads` (main.rs:62-73): the four
counters and the region cursor. -/
structure CountState where
  all_reads_accepted : Nat
  all_reads_rejected : Nat
  exon_reads_accepted : Nat
  exon_reads_rejected : Nat
  current_region_index : Nat
deriving DecidableEq, Repr

/-- The cursor-advance loop of `count_reads` (main.rs:95-105): move the
region index forward past every region whose `end ≤ read.pos`, never past
the end of the list. -/
def advance_region_index (regions : List Region) (pos : Int) (idx : Nat) : Nat :=
  if h : idx < regions.length then
    if (regions.get ⟨idx, h⟩).«end» ≤ pos then advance_region_index regions pos (idx + 1)
    else idx
  else idx
termination_by regions.length - idx

/-- The probe loop of `count_reads` (main.rs:110-126): from `idx` upward,
stop with `false` at the first region starting past `end_pos`, stop with
`true` at the first region the read's CIGAR overlaps. -/
def probe_regions (read : Record) (regions : List Region) (end_pos : Int) (idx : Nat) : Bool :=
  if h : idx < regions.length then
    let region := regions.get ⟨idx, h⟩
    if end_pos < region.start then false
    else if check_cigar_overlap read region.start region.«end» then true
    else probe_regions read regions end_pos (idx + 1)
  else false
termination_by regions.length - idx

/-- The per-record body of the `count_reads` loop (main.rs:77-127): skip
always-filtered records entirely; otherwise classify and bump the matching
mapped counter, advance the region cursor, and — if a probed region
overlaps — bump the exon counter matching the same classification, at most
once. -/
def process_record (regions : List Region) (args : ProgramOptions) (s : CountState)
    (read : Record) : CountState :=
  if read.flags &&& FLAGS_ALWAYS_FILTERED ≠ 0 then s
  else
    let outcome := check_read read args
    let s1 :=
      match outcome with
      | ReadCheckOutcome.Accept => { s with all_reads_accepted := s.all_reads_accepted + 1 }
      | ReadCheckOutcome.Reject => { s with all_reads_rejected := s.all_reads_rejected + 1 }
    let idx := advance_region_index regions read.pos s.current_region_index
    let s2 := { s1 with current_region_index := idx }
    if idx < regions.length then
      if probe_regions read regions (cigar_end_pos read) idx then
        match outcome with
        | ReadCheckOutcome.Accept =>
          { s2 with exon_reads_accepted := s2.exon_reads_accepted + 1 }
        | ReadCheckOutcome.Reject =>
          { s2 with exon_reads_rejected := s2.exon_reads_rejected + 1 }
      else s2
    else s2

/-- `count_reads` (main.rs:57-141) over the fetched record sequence: an
element is `none` when the record failed to decode (the `Err` arm logs and
continues); the accumulated counters become the mapped and exon
`CountResult` pair. -/
def count_reads (regions : List Region) (args : ProgramOptions)
    (reads : List (Option Record)) : CountResult × CountResult :=
  let s := reads.foldl
    (fun s r =>
      match r with
      | some read => process_record regions args s read
      | none => s)
    ⟨0, 0, 0, 0, 0⟩
  (⟨s.all_reads_accepted, s.all_reads_rejected⟩, ⟨s.exon_reads_accepted, s.exon_reads_rejected⟩)

/-- Claim C4: in the per-chromosome scan, a record whose flags intersect
the fixed always-exclude set (secondary, supplementary, quality-check
failed — `FLAGS_ALWAYS_FILTERED = 256 + 512 + 2048`) contributes to no
tally; every other decoded record increments exactly the mapped counter of
its classification, and increments at most the exon counter of that same
classification — by one at most, however many regions it overlaps. -/
theorem process_record_tally (regions : List Region) (args : ProgramOptions)
    (s : CountState) (read : Record) :
    FLAGS_ALWAYS_FILTERED = 256 + 512 + 2048 ∧
    (read.flags &&& FLAGS_ALWAYS_FILTERED ≠ 0 → process_record regions args s read = s) ∧
    (read.flags &&& FLAGS_ALWAYS_FILTERED = 0 →
      check_read read args = ReadCheckOutcome.Accept →
      (process_record regions args s read).all_reads_accepted = s.all_reads_accepted + 1 ∧
      (process_record regions args s read).all_reads_rejected = s.all_reads_rejected ∧
      (process_record regions args s read).exon_reads_rejected = s.exon_reads_rejected ∧
      ((process_record regions args s read).exon_reads_accepted = s.exon_reads_accepted ∨
        (process_record regions args s read).exon_reads_accepted = s.exon_reads_accepted + 1)) ∧
    (read.flags &&& FLAGS_ALWAYS_FILTERED = 0 →
      check_read read args = ReadCheckOutcome.Reject →
      (process_record regions args s read).all_reads_rejected = s.all_reads_rejected + 1 ∧
      (process_record regions args s read).all_reads_accepted = s.all_reads_accepted ∧
      (process_record regions args s read).exon_reads_accepted = s.exon_reads_accepted ∧
      ((process_record regions args s read).exon_reads_rejected = s.exon_reads_rejected ∨
        (process_record regions args s read).exon_reads_rejected = s.exon_reads_rejected + 1)) := by
  refine ⟨rfl, fun hne => ?_, fun hz hacc => ?_, fun hz hrej => ?_⟩
  · simp [process_record, hne]
  · unfold process_record
    rw [if_neg (by simpa using hz)]
    simp only [hacc]
    split
    · split <;> simp
    · simp
  · unfold process_record
    rw [if_neg (by simpa using hz)]
    simp only [hrej]
    split
    · split <;> simp
    · simp

/-- The reduction loop of `count_mapped_reads` (main.rs:168-174): walk the
collected per-chromosome results in order; `result?` returns the first
error immediately, otherwise the four tally fields are summed into the
accumulator. -/
def sum_results {ε : Type} :
    CountResult × CountResult → List (Except ε (CountResult × CountResult)) →
      Except ε (CountResult × CountResult)
  | acc, [] => Except.ok acc
  | _, Except.error e :: _ => Except.error e
  | (all, exon), Except.ok (a, x) :: rest =>
    sum_results
      (⟨all.accepted + a.accepted, all.rejected + a.rejected⟩,
        ⟨exon.accepted + x.accepted, exon.rejected + x.rejected⟩)
      rest

/-- `count_mapped_reads` (main.rs:143-177), modelled over the collected
per-chromosome result list: `par_iter().map(..).collect()` yields results
in chromosome-sorted order whatever the scheduling, and the sequential
`for` loop reduces them starting from zero accumulators. -/
def count_mapped_reads {ε : Type}
    (results : List (Except ε (CountResult × CountResult))) :
    Except ε (CountResult × CountResult) :=
  sum_results (⟨0, 0⟩, ⟨0, 0⟩) results

lemma sum_results_first_error {ε : Type} (e : ε)
    (post : List (Except ε (CountResult × CountResult))) :
    ∀ (pre : List (CountResult × CountResult)) (acc : CountResult × CountResult),
      sum_results acc (pre.map Except.ok ++ Except.error e :: post) = Except.error e := by
  intro pre
  induction pre with
  | nil =>
    intro acc
    obtain ⟨all, exon⟩ := acc
    simp [sum_results]
  | cons v rest ih =>
    intro acc
    obtain ⟨all, exon⟩ := acc
    obtain ⟨a, x⟩ := v
    simp [sum_results, ih]

lemma sum_results_all_ok {ε : Type} :
    ∀ (vals : List (CountResult × CountResult)) (a1 a2 a3 a4 : Nat),
      sum_results (ε := ε) (⟨a1, a2⟩, ⟨a3, a4⟩) (vals.map Except.ok) =
        Except.ok
          (⟨a1 + (vals.map fun v => v.1.accepted).sum,
            a2 + (vals.map fun v => v.1.rejected).sum⟩,
          ⟨a3 + (vals.map fun v => v.2.accepted).sum,
            a4 + (vals.map fun v => v.2.rejected).sum⟩) := by
  intro vals
  induction vals with
  | nil => intro a1 a2 a3 a4; simp [sum_results]
  | cons v rest ih =>
    intro a1 a2 a3 a4
    obtain ⟨⟨b1, b2⟩, ⟨b3, b4⟩⟩ := v
    simp [sum_results, ih, Nat.add_assoc]

/-- Claim C9: if some per-chromosome task fails, the aggregation returns
the first error in order and produces no tallies — results from the
successfully finished earlier tasks are discarded; when every task
succeeds, the aggregate is the field-wise sum of all four-way tallies. -/
theorem count_mapped_reads_aggregation {ε : Type}
    (results : List (Except ε (CountResult × CountResult))) :
    (∀ (pre : List (CountResult × CountResult)) (e : ε)
        (post : List (Except ε (CountResult × CountResult))),
      results = pre.map Except.ok ++ Except.error e :: post →
        count_mapped_reads results = Except.error e) ∧
    (∀ vals : List (CountResult × CountResult),
      results = vals.map Except.ok →
        count_mapped_reads results =
          Except.ok
            (⟨(vals.map fun v => v.1.accepted).sum, (vals.map fun v => v.1.rejected).sum⟩,
            ⟨(vals.map fun v => v.2.accepted).sum, (vals.map fun v => v.2.rejected).sum⟩)) := by
  constructor
  · intro pre e post heq
    rw [heq]
    exact sum_results_first_error e post pre _
  · intro vals heq
    rw [heq]
    simpa using sum_results_all_ok vals 0 0 0 0

end RegionCounter
